import Mathlib

/-!
Shallow embedding of the `misanthropy` crate (Rust client for the Anthropic
messages API), covering the data model, the stream-merge engine
(`StreamedResponse::merge_event`), usage accounting (`Usage::merge`), request
building (`MessagesRequest::add_content`), response rendering
(`MessagesResponse::format_content`) and the streaming entry point
(`Anthropic::messages_stream`), together with theorems settling the spec
claims about them.

Rust `String` is modelled as Lean `String` (a sequence of characters),
`Vec<T>` as `List T`, `Option<T>` as `Option T`, and `u32` token counters as
`Nat` (the claims at issue are unaffected by 32-bit wraparound).  A Rust
panic (`unimplemented!`) is modelled as an explicit `panicked` outcome of the
merge step, distinct from any returned value.
-/

namespace Misanthropy

/-- Model of `CacheControl` (lib.rs): only the `Ephemeral` variant exists. -/
inductive CacheControl
  | ephemeral
deriving DecidableEq, Repr

/-- Model of `Role` (lib.rs): `User` or `Assistant`; Rust `Default` is `User`. -/
inductive Role
  | user
  | assistant
deriving DecidableEq, Repr

/-- Model of `StopReason` (lib.rs). -/
inductive StopReason
  | endTurn
  | maxTokens
  | stopSequence
  | toolUse
deriving DecidableEq, Repr

/-- Model of `Source` (lib.rs): image source metadata. -/
structure Source where
  source_type : String
  media_type : String
  data : String
deriving DecidableEq, Repr

/-- Model of `Text` (lib.rs): a text content block. -/
structure Text where
  text : String
  cache_control : Option CacheControl
deriving DecidableEq, Repr

/-- Model of `ThinkingContent` (lib.rs): a thinking content block. -/
structure ThinkingContent where
  thinking : String
  signature : Option String
deriving DecidableEq, Repr

/-- Model of `Image` (lib.rs). -/
structure Image where
  source : Source
  cache_control : Option CacheControl
deriving DecidableEq, Repr

/-- `serde_json::Value` is external to this repository (the spec treats JSON
mechanics as a primitive); it is modelled opaquely by its rendered display
text, which is all `format_content` uses of it. -/
structure JsonValue where
  rendered : String
deriving DecidableEq, Repr

/-- Model of `ToolUse` (lib.rs). -/
structure ToolUse where
  id : String
  name : String
  input : JsonValue
  cache_control : Option CacheControl
deriving DecidableEq, Repr

/-- Model of `ToolResult` (lib.rs). -/
structure ToolResult where
  tool_use_id : String
  content : String
  is_error : Bool
deriving DecidableEq, Repr

/-- Model of `Content` (lib.rs): the tagged union of content blocks. -/
inductive Content
  | text (t : Text)
  | image (i : Image)
  | toolUse (tu : ToolUse)
  | toolResult (tr : ToolResult)
  | thinking (th : ThinkingContent)
deriving DecidableEq, Repr

/-- Model of `Usage` (lib.rs): four optional token counters (`u32` modelled
as `Nat`). -/
structure Usage where
  input_tokens : Option Nat
  output_tokens : Option Nat
  cache_creation_input_tokens : Option Nat
  cache_read_input_tokens : Option Nat
deriving DecidableEq, Repr

/-- Model of `Usage::default()` (Rust `#[derive(Default)]`): all counters
absent. -/
def Usage.default : Usage :=
  { input_tokens := none
    output_tokens := none
    cache_creation_input_tokens := none
    cache_read_input_tokens := none }

/-- Model of `Usage::merge` (lib.rs lines 797-810): each counter of the
result is `Some` of the sum of the two operands' counters, an absent counter
counting as `0`. -/
def Usage.merge (self other : Usage) : Usage :=
  { input_tokens := some (self.input_tokens.getD 0 + other.input_tokens.getD 0)
    output_tokens := some (self.output_tokens.getD 0 + other.output_tokens.getD 0)
    cache_creation_input_tokens :=
      some (self.cache_creation_input_tokens.getD 0 + other.cache_creation_input_tokens.getD 0)
    cache_read_input_tokens :=
      some (self.cache_read_input_tokens.getD 0 + other.cache_read_input_tokens.getD 0) }

/-- All four counters of a `Usage` are present (`Some`). -/
def Usage.allPresent (u : Usage) : Bool :=
  u.input_tokens.isSome && u.output_tokens.isSome &&
    u.cache_creation_input_tokens.isSome && u.cache_read_input_tokens.isSome

/-- Model of `MessagesResponse` (lib.rs): the response aggregate.  Rust
`Default` gives empty strings, empty content, role `User`, absent stop data
and `Usage::default()`. -/
structure MessagesResponse where
  content : List Content
  id : String
  model : String
  role : Role
  stop_reason : Option StopReason
  stop_sequence : Option String
  message_type : String
  usage : Usage
deriving DecidableEq, Repr

/-- Model of `MessagesResponse::default()`. -/
def MessagesResponse.default : MessagesResponse :=
  { content := []
    id := ""
    model := ""
    role := .user
    stop_reason := none
    stop_sequence := none
    message_type := ""
    usage := Usage.default }

/-- Model of `StreamError` (lib.rs). -/
structure StreamError where
  type_ : String
  message : String
deriving DecidableEq, Repr

/-- Model of `MessageDelta` (lib.rs): stop-reason/stop-sequence update. -/
structure MessageDelta where
  stop_reason : Option StopReason
  stop_sequence : Option String
deriving DecidableEq, Repr

/-- Model of `ContentBlockDelta` (lib.rs): incremental content-block update.
The `inputJsonDelta` payload is the Rust field `partial_json`. -/
inductive ContentBlockDelta
  | textDelta (text : String)
  | inputJsonDelta (pjson : String)
  | thinkingDelta (thinking : String)
deriving DecidableEq, Repr

/-- Model of `StreamEvent` (lib.rs): the tagged union of streamed events. -/
inductive StreamEvent
  | error (e : StreamError)
  | messageStart (message : MessagesResponse)
  | contentBlockStart (index : Nat) (content_block : Content)
  | ping
  | contentBlockDelta (index : Nat) (delta : ContentBlockDelta)
  | contentBlockStop (index : Nat)
  | messageDelta (delta : MessageDelta) (usage : Usage)
  | messageStop
deriving DecidableEq, Repr

/-- Outcome of one `merge_event` step: either the updated response, or a
Rust panic (the `unimplemented!` in the ToolUse-delta arm), carrying the
panic message.  A panic is not a returned value: in Rust it unwinds and, by
default, terminates the process. -/
inductive MergeResult
  | ok (response : MessagesResponse)
  | panicked (msg : String)
deriving DecidableEq, Repr

/-- Model of `StreamedResponse::merge_event` (lib.rs lines 343-404), acting
on the `response` field it mutates.  The match arms appear in source order;
the ToolUse arm is the `unimplemented!` panic. -/
def merge_event (resp : MessagesResponse) (event : StreamEvent) : MergeResult :=
  match event with
  | .messageStart message =>
      .ok { resp with
              id := message.id
              model := message.model
              role := message.role
              content := message.content
              stop_reason := message.stop_reason
              stop_sequence := message.stop_sequence
              usage := resp.usage.merge message.usage }
  | .contentBlockStart index content_block =>
      if resp.content.length ≤ index then
        .ok { resp with content := resp.content ++ [content_block] }
      else
        .ok resp
  | .contentBlockDelta index delta =>
      match resp.content[index]? with
      | none => .ok resp
      | some block =>
          match block, delta with
          | .text t, .textDelta delta_text =>
              .ok { resp with
                      content := resp.content.set index (.text { t with text := t.text ++ delta_text }) }
          | .thinking th, .thinkingDelta delta_thinking =>
              .ok { resp with
                      content := resp.content.set index
                        (.thinking { th with thinking := th.thinking ++ delta_thinking }) }
          | .toolUse _, _ =>
              .panicked "Partial updates for ToolUse blocks are not supported yet"
          | _, _ =>
              -- `log::warn!` only: no state change, the stream continues.
              .ok resp
  | .messageDelta delta usage =>
      .ok { resp with
              stop_reason := delta.stop_reason
              stop_sequence := delta.stop_sequence
              usage := resp.usage.merge usage }
  | .contentBlockStop _ => .ok resp
  | .ping => .ok resp
  | .messageStop => .ok resp
  | .error _ => .ok resp

/-- Fold `merge_event` over a list of events (the per-event application the
stream loop in `StreamedResponse::next` performs); a panic aborts the fold. -/
def merge_events (resp : MessagesResponse) : List StreamEvent → MergeResult
  | [] => .ok resp
  | e :: es =>
      match merge_event resp e with
      | .ok r => merge_events r es
      | .panicked m => .panicked m

/-- Extract the response of a non-panicked merge outcome. -/
def MergeResult.getResponse? : MergeResult → Option MessagesResponse
  | .ok r => some r
  | .panicked _ => none

/-- Model of `StreamedResponse::content_text` (lib.rs lines 406-419):
concatenation of the text of every `Text` block, in order. -/
def content_text (resp : MessagesResponse) : String :=
  String.join (resp.content.filterMap fun block =>
    match block with
    | .text t => some t.text
    | _ => none)

/-- Model of `Message` (lib.rs): a role plus content blocks. -/
structure Message where
  role : Role
  content : List Content
deriving DecidableEq, Repr

/-- Model of `Message::new` (lib.rs). -/
def Message.new (role : Role) : Message :=
  { role := role, content := [] }

/-- `schemars::Schema` is external to this repository; the core only stores
and serializes it, so it is modelled opaquely by its serialized text. -/
structure Schema where
  rendered : String
deriving DecidableEq, Repr

/-- Model of `Tool` (lib.rs). -/
inductive Tool
  | custom (name : String) (description : String) (input_schema : Schema)
      (cache_control : Option CacheControl)
  | textEditor (name : String) (typ : String) (cache_control : Option CacheControl)
deriving DecidableEq, Repr

/-- Model of `ToolChoice` (lib.rs); Rust `Default` is `Auto`. -/
inductive ToolChoice
  | auto
  | any
  | tool (name : String)
  | none
deriving DecidableEq, Repr

/-- Model of `Thinking` (lib.rs): extended-thinking configuration. -/
structure Thinking where
  thinking_type : String
  budget_tokens : Nat
deriving DecidableEq, Repr

/-- Model of `MessagesRequest` (lib.rs).  `temperature` is an `f32` in Rust;
it is carried opaquely (never computed with) as a `Float`. -/
structure MessagesRequest where
  model : String
  max_tokens : Nat
  messages : List Message
  system : List Content
  temperature : Option Float
  stream : Bool
  tools : List Tool
  tool_choice : ToolChoice
  stop_sequences : List String
  thinking : Option Thinking

/-- Model of `DEFAULT_MODEL` (lib.rs). -/
def DEFAULT_MODEL : String := "claude-sonnet-4-20250514"

/-- Model of `DEFAULT_MAX_TOKENS` (lib.rs). -/
def DEFAULT_MAX_TOKENS : Nat := 1024

/-- Model of `ANTHROPIC_API_VERSION` (lib.rs). -/
def ANTHROPIC_API_VERSION : String := "2023-06-01"

/-- Model of `impl Default for MessagesRequest` (lib.rs lines 873-888). -/
def MessagesRequest.default : MessagesRequest :=
  { model := DEFAULT_MODEL
    max_tokens := DEFAULT_MAX_TOKENS
    messages := []
    system := []
    temperature := none
    stream := false
    tools := []
    tool_choice := .auto
    stop_sequences := []
    thinking := none }

/-- Model of `MessagesRequest::add_content` (lib.rs lines 1024-1035): if the
last message exists and has the same role, push the content onto it (the
`last_mut` mutation is modelled by rebuilding the list with its last element
replaced); otherwise push a fresh one-block message. -/
def add_content (req : MessagesRequest) (role : Role) (content : Content) : MessagesRequest :=
  match req.messages.getLast? with
  | some last_message =>
      if last_message.role = role then
        { req with
            messages := req.messages.dropLast ++
              [{ last_message with content := last_message.content ++ [content] }] }
      else
        { req with messages := req.messages ++ [{ Message.new role with content := [content] }] }
  | none =>
      { req with messages := req.messages ++ [{ Message.new role with content := [content] }] }

/-- Model of `MessagesRequest::add_user` (lib.rs). -/
def add_user (req : MessagesRequest) (content : Content) : MessagesRequest :=
  add_content req .user content

/-- Model of `MessagesRequest::add_assistant` (lib.rs). -/
def add_assistant (req : MessagesRequest) (content : Content) : MessagesRequest :=
  add_content req .assistant content

/-- Model of `Error` (error.rs): the crate's error taxonomy.  Payloads that
are external error objects (`serde_json::Error`, `reqwest::Error`, ...) are
modelled by their message text. -/
inductive Error
  | apiError (msg : String)
  | responseParseError (msg : String)
  | httpError (msg : String)
  | rateLimitExceeded (msg : String)
  | apiOverloaded (msg : String)
  | unknownError (msg : String)
  | unauthorized (msg : String)
  | badRequest (msg : String)
  | envVarError (msg : String)
  | eventSourceError (msg : String)
  | streamError (msg : String)
  | invalidHeaderValue (msg : String)
deriving DecidableEq, Repr

/-- Model of `StreamedResponse` (lib.rs): accumulated response plus the
event source, the latter external (`reqwest_eventsource::EventSource`) and
modelled as an opaque presence token. -/
structure StreamedResponse where
  response : MessagesResponse
  event_source : Option Unit
deriving DecidableEq, Repr

/-- Model of `StreamedResponse::new` (lib.rs lines 278-283). -/
def StreamedResponse.new : StreamedResponse :=
  { response := MessagesResponse.default, event_source := some () }

/-- Model of `Anthropic` (lib.rs): API client state. -/
structure Anthropic where
  api_key : String
  base_url : String
deriving DecidableEq, Repr

/-- A `char` acceptable inside an HTTP header value
(`reqwest::header::HeaderValue::from_str`): horizontal tab or any byte from
32 up, except delete. -/
def isValidHeaderChar (c : Char) : Bool :=
  c.val = 9 || (32 ≤ c.val && c.val ≠ 127)

/-- Model of `Anthropic::create_headers` (lib.rs lines 1132-1142): fails
with `InvalidHeaderValue` when the api key is not a legal header value. -/
def create_headers (client : Anthropic) : Except Error (List (String × String)) :=
  if client.api_key.data.all isValidHeaderChar then
    .ok [("x-api-key", client.api_key),
         ("anthropic-version", ANTHROPIC_API_VERSION),
         ("content-type", "application/json")]
  else
    .error (.invalidHeaderValue client.api_key)

/-- An observable transport-layer action; `postMessages` stands for opening
the SSE POST to `/v1/messages` (recorded even though the underlying
`EventSource` connects lazily: it is the only point at which network I/O
can begin). -/
inductive TransportAction
  | postMessages (url : String)
deriving DecidableEq, Repr

/-- Model of `Anthropic::messages_stream` (lib.rs lines 1148-1163): the
returned value paired with the list of transport actions performed.  The
`stream` flag is checked before anything else; the early-return path
performs no transport action. -/
def messages_stream (client : Anthropic) (request : MessagesRequest) :
    Except Error StreamedResponse × List TransportAction :=
  if !request.stream then
    (.error (.badRequest "Streaming requests must have stream set to true"), [])
  else
    match create_headers client with
    | .error e => (.error e, [])
    | .ok _ =>
        (.ok StreamedResponse.new, [.postMessages (client.base_url ++ "/v1/messages")])

/-- Split a character sequence at every newline, keeping empty segments
(helper for the model of Rust `str::lines`).  Splitting the empty sequence
yields one empty segment. -/
def splitNl : List Char → List (List Char)
  | [] => [[]]
  | c :: cs =>
      if c = '\n' then [] :: splitNl cs
      else
        match splitNl cs with
        | l :: ls => (c :: l) :: ls
        | [] => [[c]]

/-- Drop one trailing carriage return (Rust `str::lines` strips `\r` before
the newline). -/
def stripCr (l : List Char) : List Char :=
  if l.getLast? = some '\r' then l.dropLast else l

/-- Model of Rust `str::lines`: split at `\n`, do not yield a final empty
line for a trailing newline, strip one `\r` at the end of each line. -/
def linesOf (s : List Char) : List (List Char) :=
  let parts := splitNl s
  let parts := if parts.getLast? = some [] then parts.dropLast else parts
  parts.map stripCr

/-- Model of Rust `str::trim_start_matches(pat)` for a string pattern:
repeatedly remove the pattern from the front while it is a prefix. -/
def trimStartMatchesList (pat : List Char) (l : List Char) : List Char :=
  if h : pat ≠ [] ∧ pat.isPrefixOf l then
    trimStartMatchesList pat (l.drop pat.length)
  else l
termination_by l.length
decreasing_by
  have hple : pat.length ≤ l.length := (List.isPrefixOf_iff_prefix.mp h.2).length_le
  have hpos : 0 < pat.length := List.length_pos.mpr h.1
  simp only [List.length_drop]
  omega

/-- Model of Rust `char::is_whitespace`: the Unicode White_Space property
(U+0009 to U+000D, space, U+0085, U+00A0, U+1680, U+2000 to U+200A, U+2028,
U+2029, U+202F, U+205F, U+3000). -/
def isRustWhitespace (c : Char) : Bool :=
  c.val == 0x09 || c.val == 0x0A || c.val == 0x0B || c.val == 0x0C || c.val == 0x0D ||
  c.val == 0x20 || c.val == 0x85 || c.val == 0xA0 || c.val == 0x1680 ||
  (decide (0x2000 ≤ c.val) && decide (c.val ≤ 0x200A)) ||
  c.val == 0x2028 || c.val == 0x2029 || c.val == 0x202F || c.val == 0x205F ||
  c.val == 0x3000

/-- Model of Rust `str::trim`: drop Unicode whitespace from both ends. -/
def trimList (l : List Char) : List Char :=
  ((l.dropWhile isRustWhitespace).reverse.dropWhile isRustWhitespace).reverse

/-- One iteration of the `for content in &self.content` loop in
`MessagesResponse::format_content` (lib.rs lines 526-588): append this
block's rendered line to the output and update the `has_user_messages`
flag.  The accumulating Rust `String` is handled at the character-sequence
level. -/
def formatStep (role : Role) (acc : List Char × Bool) (c : Content) : List Char × Bool :=
  let output := acc.1
  let has_user_messages := acc.2
  let who : List Char := (if role = .user then "user" else "assistant").data
  match c with
  | .text t =>
      if role = .user then
        (output ++ "user: ".data ++ t.text.data ++ ['\n'], true)
      else
        (output ++ "assistant: ".data ++ t.text.data ++ ['\n'], has_user_messages)
  | .image i =>
      (output ++ who ++ ": [Image: ".data ++ i.source.source_type.data ++ [' '] ++
        i.source.media_type.data ++ [']', '\n'], true)
  | .toolUse tu =>
      (output ++ who ++ ": [Tool(".data ++ tu.id.data ++ "): ".data ++ tu.name.data ++ [' '] ++
        tu.input.rendered.data ++ [']', '\n'], true)
  | .toolResult tr =>
      (output ++ who ++ ": [Tool Result(".data ++ tr.tool_use_id.data ++ "): ".data ++
        tr.content.data ++ [']', '\n'], true)
  | .thinking th =>
      (output ++ who ++ ": [Thinking: ".data ++ th.thinking.data ++ [']', '\n'], has_user_messages)

/-- Model of `MessagesResponse::format_content` (lib.rs lines 522-600):
render every block to a role-prefixed line; if no user-origin content was
seen, strip the assistant role tag from every line; trim the result. -/
def format_content (resp : MessagesResponse) : String :=
  let folded := resp.content.foldl (formatStep resp.role) ([], false)
  let output := folded.1
  let has_user_messages := folded.2
  let output :=
    if !has_user_messages then
      List.intercalate ['\n'] ((linesOf output).map (trimStartMatchesList "assistant: ".data))
    else output
  String.mk (trimList output)

/-- Specification-side grouping, written from the claim's words: group a
call sequence into maximal same-role runs, one message per run, each holding
its run's contents in call order. -/
def runsSpec : List (Role × Content) → List Message
  | [] => []
  | (r, c) :: rest =>
      match runsSpec rest with
      | [] => [{ role := r, content := [c] }]
      | m :: ms =>
          if m.role = r then { role := r, content := c :: m.content } :: ms
          else { role := r, content := [c] } :: m :: ms

/-- Specification-side count of maximal same-role runs in a call sequence. -/
def countRuns : List (Role × Content) → Nat
  | [] => 0
  | (r, _) :: rest =>
      match rest with
      | [] => 1
      | (r2, _) :: _ => (if r = r2 then 0 else 1) + countRuns rest

/-- Apply a sequence of `add_user`/`add_assistant` calls (each given as its
role and content argument) to a request, in order. -/
def applyCalls (req : MessagesRequest) (calls : List (Role × Content)) : MessagesRequest :=
  calls.foldl (fun acc rc => add_content acc rc.1 rc.2) req

/-- Does this event touch the usage counters when merged
(`MessageStart` and `MessageDelta` are the only ones that do)? -/
def touchesUsage : StreamEvent → Bool
  | .messageStart _ => true
  | .messageDelta _ _ => true
  | _ => false

/-- Helper for run-grouping proofs: the messages produced by an open
trailing message `m` followed by the remaining calls. -/
def consume (m : Message) : List (Role × Content) → List Message
  | [] => [m]
  | (r, c) :: rest =>
      if m.role = r then consume { m with content := m.content ++ [c] } rest
      else m :: consume { role := r, content := [c] } rest

/-- Helper for run-grouping proofs: prepend a run with role `r` and contents
`cs` to a grouped message list, fusing with the first group when the roles
agree. -/
def prependRun (r : Role) (cs : List Content) : List Message → List Message
  | [] => [{ role := r, content := cs }]
  | m :: ms =>
      if m.role = r then { role := r, content := cs ++ m.content } :: ms
      else { role := r, content := cs } :: m :: ms

/-- The claim's canonical text-only stream, truncated after its first `k`
deltas: MessageStart with an empty (default) response, ContentBlockStart of
an empty Text block at index 0, then the first `k` TextDelta events. -/
def textStreamUpTo (deltas : List String) (k : Nat) : List StreamEvent :=
  [.messageStart MessagesResponse.default, .contentBlockStart 0 (.text ⟨"", none⟩)] ++
    ((deltas.take k).map fun s => .contentBlockDelta 0 (.textDelta s))

/-- The claim's full canonical text-only stream, closed by ContentBlockStop
and MessageStop. -/
def textStream (deltas : List String) : List StreamEvent :=
  textStreamUpTo deltas deltas.length ++ [.contentBlockStop 0, .messageStop]

/-- The current text (`content_text`) read after the first `k` deltas of the
canonical stream; `none` would mean the fold panicked. -/
def textAfter (deltas : List String) (k : Nat) : Option String :=
  (merge_events MessagesResponse.default (textStreamUpTo deltas k)).getResponse?.map content_text

/-- The current text read after the whole canonical stream (MessageStop
included). -/
def finalText (deltas : List String) : Option String :=
  (merge_events MessagesResponse.default (textStream deltas)).getResponse?.map content_text

/-- The single line `format_content` renders for one block (everything the
loop body pushes except the trailing newline). -/
def renderLine (role : Role) (c : Content) : List Char :=
  let who : List Char := (if role = .user then "user" else "assistant").data
  match c with
  | .text t =>
      (if role = .user then "user: ".data else "assistant: ".data) ++ t.text.data
  | .image i =>
      who ++ ": [Image: ".data ++ i.source.source_type.data ++ [' '] ++
        i.source.media_type.data ++ [']']
  | .toolUse tu =>
      who ++ ": [Tool(".data ++ tu.id.data ++ "): ".data ++ tu.name.data ++ [' '] ++
        tu.input.rendered.data ++ [']']
  | .toolResult tr =>
      who ++ ": [Tool Result(".data ++ tr.tool_use_id.data ++ "): ".data ++
        tr.content.data ++ [']']
  | .thinking th =>
      who ++ ": [Thinking: ".data ++ th.thinking.data ++ [']']

/-- Does rendering this block set the `has_user_messages` flag?  Text does
so only for a user-role response; Image/ToolUse/ToolResult always do;
Thinking never does. -/
def setsUserFlag (role : Role) : Content → Bool
  | .text _ => role = .user
  | .image _ => true
  | .toolUse _ => true
  | .toolResult _ => true
  | .thinking _ => false

/-- Does this line carry a role tag at its front? -/
def startsWithRole (l : List Char) : Bool :=
  "user: ".data.isPrefixOf l || "assistant: ".data.isPrefixOf l

/-- A rendered line that survives `format_content`'s post-processing intact:
single-line, and not ending in whitespace (so the final trim and the
carriage-return stripping of `lines` leave it alone). -/
def cleanLine (l : List Char) : Bool :=
  l.all (fun c => !(c = '\n')) && l.getLast?.all (fun d => !isRustWhitespace d)

lemma Usage.merge_allPresent (a b : Usage) : (a.merge b).allPresent = true := rfl

lemma merge_event_usage_eq_or_present {resp : MessagesResponse} {e : StreamEvent}
    {r : MessagesResponse} (h : merge_event resp e = .ok r) :
    r.usage = resp.usage ∨ r.usage.allPresent = true := by
  cases e with
  | messageStart m =>
      simp [merge_event] at h
      subst h
      exact Or.inr (Usage.merge_allPresent ..)
  | contentBlockStart i b =>
      simp only [merge_event] at h
      split at h <;> · simp at h; subst h; exact Or.inl rfl
  | contentBlockDelta i d =>
      rcases hc : resp.content[i]? with _ | b
      · simp [merge_event, hc] at h; subst h; exact Or.inl rfl
      · cases b <;> cases d <;> simp [merge_event, hc] at h <;>
          (subst h; exact Or.inl rfl)
  | messageDelta d u =>
      simp [merge_event] at h
      subst h
      exact Or.inr (Usage.merge_allPresent ..)
  | contentBlockStop i => simp [merge_event] at h; subst h; exact Or.inl rfl
  | ping => simp [merge_event] at h; subst h; exact Or.inl rfl
  | messageStop => simp [merge_event] at h; subst h; exact Or.inl rfl
  | error se => simp [merge_event] at h; subst h; exact Or.inl rfl

lemma merge_event_touches_present {resp : MessagesResponse} {e : StreamEvent}
    {r : MessagesResponse} (ht : touchesUsage e = true) (h : merge_event resp e = .ok r) :
    r.usage.allPresent = true := by
  cases e with
  | messageStart m => simp [merge_event] at h; subst h; exact Usage.merge_allPresent ..
  | messageDelta d u => simp [merge_event] at h; subst h; exact Usage.merge_allPresent ..
  | contentBlockStart i b => simp [touchesUsage] at ht
  | contentBlockDelta i d => simp [touchesUsage] at ht
  | contentBlockStop i => simp [touchesUsage] at ht
  | ping => simp [touchesUsage] at ht
  | messageStop => simp [touchesUsage] at ht
  | error se => simp [touchesUsage] at ht

lemma merge_events_ok_step {resp : MessagesResponse} {e : StreamEvent} {es : List StreamEvent}
    {r : MessagesResponse} (h : merge_events resp (e :: es) = .ok r) :
    ∃ r1, merge_event resp e = .ok r1 ∧ merge_events r1 es = .ok r := by
  rcases hme : merge_event resp e with r1 | m
  · exact ⟨r1, rfl, by simpa [merge_events, hme] using h⟩
  · simp [merge_events, hme] at h

lemma merge_events_preserve_present {es : List StreamEvent} :
    ∀ {resp r : MessagesResponse}, merge_events resp es = .ok r →
      resp.usage.allPresent = true → r.usage.allPresent = true := by
  induction es with
  | nil => intro resp r h hp; simp [merge_events] at h; subst h; exact hp
  | cons e es ih =>
      intro resp r h hp
      obtain ⟨r1, h1, h2⟩ := merge_events_ok_step h
      rcases merge_event_usage_eq_or_present h1 with he | hap
      · exact ih h2 (he ▸ hp)
      · exact ih h2 hap

lemma runsSpec_cons (r : Role) (c : Content) (rest : List (Role × Content)) :
    runsSpec ((r, c) :: rest) = prependRun r [c] (runsSpec rest) := by
  cases h : runsSpec rest with
  | nil => simp [runsSpec, prependRun, h]
  | cons m ms =>
      by_cases hr : m.role = r <;> simp [runsSpec, prependRun, h, hr]

lemma runsSpec_shape (r : Role) (c : Content) (rest : List (Role × Content)) :
    ∃ cs ms, runsSpec ((r, c) :: rest) = { role := r, content := cs } :: ms := by
  rw [runsSpec_cons]
  cases h : runsSpec rest with
  | nil => exact ⟨[c], [], rfl⟩
  | cons m ms =>
      by_cases hr : m.role = r
      · exact ⟨[c] ++ m.content, ms, by simp [prependRun, hr]⟩
      · exact ⟨[c], m :: ms, by simp [prependRun, hr]⟩

lemma prependRun_prependRun (r : Role) (cs cs2 : List Content) (L : List Message) :
    prependRun r cs (prependRun r cs2 L) = prependRun r (cs ++ cs2) L := by
  cases L with
  | nil => simp [prependRun]
  | cons m ms => by_cases hr : m.role = r <;> simp [prependRun, hr]

lemma consume_eq_prependRun (rest : List (Role × Content)) :
    ∀ (r : Role) (cs : List Content),
      consume { role := r, content := cs } rest = prependRun r cs (runsSpec rest) := by
  induction rest with
  | nil => intro r cs; simp [consume, runsSpec, prependRun]
  | cons p rest2 ih =>
      obtain ⟨r2, c2⟩ := p
      intro r cs
      by_cases hr : r = r2
      · subst hr
        rw [show consume { role := r, content := cs } ((r, c2) :: rest2) =
              consume { role := r, content := cs ++ [c2] } rest2 from by simp [consume]]
        rw [ih, runsSpec_cons, prependRun_prependRun]
      · rw [show consume { role := r, content := cs } ((r2, c2) :: rest2) =
              { role := r, content := cs } :: consume { role := r2, content := [c2] } rest2
              from by simp [consume, hr]]
        rw [ih, ← runsSpec_cons]
        obtain ⟨cs2, ms2, hshape⟩ := runsSpec_shape r2 c2 rest2
        have hne : ¬ (r2 = r) := fun hh => hr hh.symm
        rw [hshape]
        simp [prependRun, hne]

lemma applyCalls_messages (calls : List (Role × Content)) :
    ∀ (req : MessagesRequest) (gs : List Message) (m : Message),
      req.messages = gs ++ [m] → (applyCalls req calls).messages = gs ++ consume m calls := by
  induction calls with
  | nil => intro req gs m h; simpa [applyCalls, consume] using h
  | cons p rest ih =>
      obtain ⟨r, c⟩ := p
      intro req gs m h
      rw [show applyCalls req ((r, c) :: rest) = applyCalls (add_content req r c) rest from rfl]
      by_cases hr : m.role = r
      · have h1 : (add_content req r c).messages =
            gs ++ [{ m with content := m.content ++ [c] }] := by
          simp [add_content, h, List.getLast?_concat, hr, List.dropLast_concat]
        rw [ih _ gs _ h1]
        simp [consume, hr]
      · have h1 : (add_content req r c).messages =
            (gs ++ [m]) ++ [{ role := r, content := [c] }] := by
          simp [add_content, h, List.getLast?_concat, hr, Message.new]
        rw [ih _ (gs ++ [m]) _ h1]
        simp [consume, hr]

lemma runsSpec_length : ∀ calls : List (Role × Content),
    (runsSpec calls).length = countRuns calls := by
  intro calls
  induction calls with
  | nil => rfl
  | cons p rest ih =>
      obtain ⟨r, c⟩ := p
      cases rest with
      | nil => rfl
      | cons p2 rest2 =>
          obtain ⟨r2, c2⟩ := p2
          rw [runsSpec_cons]
          obtain ⟨cs2, ms2, hshape⟩ := runsSpec_shape r2 c2 rest2
          have hcr : countRuns ((r, c) :: (r2, c2) :: rest2) =
              (if r = r2 then 0 else 1) + countRuns ((r2, c2) :: rest2) := rfl
          rw [hcr, ← ih, hshape]
          by_cases hr : r = r2
          · subst hr
            simp [prependRun]
          · have hr2 : ¬ (r2 = r) := fun hh => hr hh.symm
            simp [prependRun, hr2, hr]
            omega

/-- Claim C6: starting from a request with an empty message list, any
sequence of add_user/add_assistant calls (role plus content, applied in
order) yields exactly the maximal-run grouping: the messages equal the
spec-side grouping of the call sequence into maximal same-role runs (each
message holding its run's contents in call order), and their number equals
the number of maximal runs. -/
theorem add_content_coalesces (calls : List (Role × Content)) (req : MessagesRequest)
    (h : req.messages = []) :
    (applyCalls req calls).messages = runsSpec calls ∧
    (applyCalls req calls).messages.length = countRuns calls := by
  have hmain : (applyCalls req calls).messages = runsSpec calls := by
    cases calls with
    | nil => simpa [applyCalls] using h
    | cons p rest =>
        obtain ⟨r, c⟩ := p
        have h1 : (add_content req r c).messages = [] ++ [{ role := r, content := [c] }] := by
          simp [add_content, h, Message.new]
        have h2 := applyCalls_messages rest (add_content req r c) [] ⟨r, [c]⟩ h1
        rw [show applyCalls req ((r, c) :: rest) = applyCalls (add_content req r c) rest from rfl,
          h2, consume_eq_prependRun, ← runsSpec_cons]
        simp
  exact ⟨hmain, by rw [hmain, runsSpec_length]⟩

/-- Claim C6 (witness): the call sequence user, user, assistant, user on
the default request yields three messages grouped by run. -/
theorem add_content_coalesces_witness :
    (applyCalls MessagesRequest.default
        [(.user, .text ⟨"a", none⟩), (.user, .text ⟨"b", none⟩),
         (.assistant, .text ⟨"c", none⟩), (.user, .text ⟨"d", none⟩)]).messages =
      runsSpec
        [(.user, .text ⟨"a", none⟩), (.user, .text ⟨"b", none⟩),
         (.assistant, .text ⟨"c", none⟩), (.user, .text ⟨"d", none⟩)] ∧
    (applyCalls MessagesRequest.default
        [(.user, .text ⟨"a", none⟩), (.user, .text ⟨"b", none⟩),
         (.assistant, .text ⟨"c", none⟩), (.user, .text ⟨"d", none⟩)]).messages.length =
      countRuns
        [(.user, .text ⟨"a", none⟩), (.user, .text ⟨"b", none⟩),
         (.assistant, .text ⟨"c", none⟩), (.user, .text ⟨"d", none⟩)] :=
  add_content_coalesces _ MessagesRequest.default rfl

lemma formatStep_eq (role : Role) (out : List Char) (flag : Bool) (c : Content) :
    formatStep role (out, flag) c =
      (out ++ renderLine role c ++ ['\n'], flag || setsUserFlag role c) := by
  cases c with
  | text t =>
      by_cases hr : role = .user <;>
        simp [formatStep, renderLine, setsUserFlag, hr, List.append_assoc]
  | image i => simp [formatStep, renderLine, setsUserFlag, List.append_assoc]
  | toolUse tu => simp [formatStep, renderLine, setsUserFlag, List.append_assoc]
  | toolResult tr => simp [formatStep, renderLine, setsUserFlag, List.append_assoc]
  | thinking th => simp [formatStep, renderLine, setsUserFlag, List.append_assoc]

lemma foldl_formatStep (role : Role) (blocks : List Content) :
    ∀ (out : List Char) (flag : Bool),
      blocks.foldl (formatStep role) (out, flag) =
        (out ++ (blocks.map fun c => renderLine role c ++ ['\n']).flatten,
         flag || blocks.any (setsUserFlag role)) := by
  induction blocks with
  | nil => intro out flag; simp
  | cons c cs ih =>
      intro out flag
      simp only [List.foldl_cons, formatStep_eq, ih, List.map_cons, List.flatten_cons,
        List.any_cons, List.append_assoc, Bool.or_assoc]

lemma splitNl_no_nl (l : List Char) (h : '\n' ∉ l) : splitNl l = [l] := by
  induction l with
  | nil => rfl
  | cons c cs ih =>
      have hc : ¬ (c = '\n') := fun hh => h (hh ▸ List.mem_cons_self c cs)
      have hcs : '\n' ∉ cs := fun hh => h (List.mem_cons_of_mem c hh)
      simp [splitNl, hc, ih hcs]

lemma splitNl_append_line (l rest : List Char) (h : '\n' ∉ l) :
    splitNl (l ++ '\n' :: rest) = l :: splitNl rest := by
  induction l with
  | nil => simp [splitNl]
  | cons c cs ih =>
      have hc : ¬ (c = '\n') := fun hh => h (hh ▸ List.mem_cons_self c cs)
      have hcs : '\n' ∉ cs := fun hh => h (List.mem_cons_of_mem c hh)
      simp [splitNl, hc, ih hcs]

lemma splitNl_flatten (lines : List (List Char)) (h : ∀ l ∈ lines, '\n' ∉ l) :
    splitNl ((lines.map fun l => l ++ ['\n']).flatten) = lines ++ [[]] := by
  induction lines with
  | nil => rfl
  | cons l ls ih =>
      have h1 : '\n' ∉ l := h l (List.mem_cons_self l ls)
      have h2 : ∀ x ∈ ls, '\n' ∉ x := fun x hx => h x (List.mem_cons_of_mem l hx)
      simp only [List.map_cons, List.flatten_cons, List.append_assoc, List.singleton_append]
      rw [splitNl_append_line l _ h1, ih h2]
      rfl

lemma stripCr_eq (l : List Char) (h : l.getLast? ≠ some '\r') : stripCr l = l := by
  simp [stripCr, h]

lemma linesOf_flatten (lines : List (List Char))
    (h : ∀ l ∈ lines, '\n' ∉ l ∧ l.getLast? ≠ some '\r') :
    linesOf ((lines.map fun l => l ++ ['\n']).flatten) = lines := by
  unfold linesOf
  rw [splitNl_flatten lines (fun l hl => (h l hl).1)]
  simp only [List.getLast?_concat, if_pos, List.dropLast_concat]
  rw [List.map_congr_left (fun l hl => stripCr_eq l (h l hl).2)]
  simp

lemma intercalate_singleton (x : List Char) : List.intercalate ['\n'] [x] = x := by
  simp [List.intercalate, List.intersperse]

lemma intercalate_cons2 (x y : List Char) (zs : List (List Char)) :
    List.intercalate ['\n'] (x :: y :: zs) =
      x ++ '\n' :: List.intercalate ['\n'] (y :: zs) := by
  have : List.intercalate ['\n'] (x :: y :: zs) =
      x ++ ['\n'] ++ List.intercalate ['\n'] (y :: zs) := by
    simp [List.intercalate, List.intersperse]
  simpa [List.append_assoc] using this

lemma splitNl_intercalate (lines : List (List Char)) (hne : lines ≠ [])
    (h : ∀ l ∈ lines, '\n' ∉ l) :
    splitNl (List.intercalate ['\n'] lines) = lines := by
  induction lines with
  | nil => exact absurd rfl hne
  | cons l ls ih =>
      cases ls with
      | nil =>
          rw [intercalate_singleton]
          exact splitNl_no_nl l (h l (List.mem_cons_self l []))
      | cons l2 ls2 =>
          rw [intercalate_cons2]
          rw [splitNl_append_line l _ (h l (List.mem_cons_self l _))]
          rw [ih (by simp) (fun x hx => h x (List.mem_cons_of_mem l hx))]

lemma linesOf_intercalate (lines : List (List Char))
    (h : ∀ l ∈ lines, '\n' ∉ l ∧ l.getLast? ≠ some '\r' ∧ l ≠ []) :
    linesOf (List.intercalate ['\n'] lines) = lines := by
  cases hls : lines with
  | nil => rfl
  | cons l0 ls0 =>
      subst hls
      unfold linesOf
      rw [splitNl_intercalate _ (by simp) (fun l hl => (h l hl).1)]
      have hlast : (l0 :: ls0).getLast? ≠ some [] := by
        rw [List.getLast?_eq_getLast _ (by simp)]
        intro hcontra
        have hmem := List.getLast_mem (l := l0 :: ls0) (by simp)
        exact (h _ hmem).2.2 (by injection hcontra)
      dsimp only
      rw [if_neg hlast]
      rw [List.map_congr_left (fun l hl => stripCr_eq l (h l hl).2.1)]
      simp

lemma trimSM_of_not (pat l : List Char) (h : pat.isPrefixOf l = false) :
    trimStartMatchesList pat l = l := by
  rw [trimStartMatchesList]
  simp [h]

lemma trimSM_strip (pat l : List Char) (hne : pat ≠ []) :
    trimStartMatchesList pat (pat ++ l) = trimStartMatchesList pat l := by
  rw [trimStartMatchesList]
  have hpre : pat.isPrefixOf (pat ++ l) = true :=
    List.isPrefixOf_iff_prefix.mpr (List.prefix_append pat l)
  simp [hne, hpre, List.drop_left]

lemma cleanLine_nl {l : List Char} (h : cleanLine l = true) : '\n' ∉ l := by
  simp [cleanLine, List.all_eq_true] at h
  intro hmem
  exact absurd rfl (h.1 '\n' hmem)

lemma cleanLine_last {l : List Char} (h : cleanLine l = true) :
    ∀ d, l.getLast? = some d → isRustWhitespace d = false := by
  simp [cleanLine, List.all_eq_true] at h
  intro d hd
  cases hgl : l.getLast? with
  | none => rw [hgl] at hd; cases hd
  | some e =>
      rw [hgl] at hd
      injection hd with he
      have h2 := h.2
      rw [hgl] at h2
      simp [Option.all] at h2
      rw [← he]
      simp [h2]

lemma cleanLine_cr {l : List Char} (h : cleanLine l = true) : l.getLast? ≠ some '\r' := by
  intro hcr
  have := cleanLine_last h '\r' hcr
  exact absurd this (by decide)

lemma dropWhile_of_head {p : Char → Bool} {l : List Char}
    (h : ∀ c, l.head? = some c → p c = false) : List.dropWhile p l = l := by
  cases l with
  | nil => rfl
  | cons c cs =>
      rw [List.dropWhile_cons, h c rfl]
      simp

lemma trimList_eq_self (y : List Char)
    (h1 : ∀ c, y.head? = some c → isRustWhitespace c = false)
    (h2 : ∀ c, y.getLast? = some c → isRustWhitespace c = false) :
    trimList y = y := by
  unfold trimList
  rw [dropWhile_of_head h1]
  rw [dropWhile_of_head (fun c hc => h2 c ((List.head?_reverse y) ▸ hc))]
  exact List.reverse_reverse y

lemma trimList_append_nl (y : List Char)
    (h1 : ∀ c, y.head? = some c → isRustWhitespace c = false)
    (h2 : ∀ c, y.getLast? = some c → isRustWhitespace c = false) :
    trimList (y ++ ['\n']) = y := by
  cases y with
  | nil => rfl
  | cons c cs =>
      unfold trimList
      have hc : isRustWhitespace c = false := h1 c rfl
      rw [show (c :: cs) ++ ['\n'] = c :: (cs ++ ['\n']) from rfl]
      rw [List.dropWhile_cons, hc]
      simp only [Bool.false_eq_true, if_false]
      rw [show c :: (cs ++ ['\n']) = (c :: cs) ++ ['\n'] from rfl, List.reverse_append]
      simp only [List.reverse_cons, List.reverse_nil, List.nil_append, List.singleton_append]
      rw [List.dropWhile_cons]
      rw [show isRustWhitespace '\n' = true from by decide]
      simp only [if_true]
      rw [show cs.reverse ++ [c] = (c :: cs).reverse from (List.reverse_cons c cs).symm]
      rw [dropWhile_of_head (fun d hd => h2 d ((List.head?_reverse (c :: cs)) ▸ hd))]
      exact List.reverse_reverse (c :: cs)

lemma renderLine_user_tag (c : Content) :
    "user: ".data.isPrefixOf (renderLine .user c) = true := by
  rw [List.isPrefixOf_iff_prefix]
  cases c with
  | text t => exact ⟨t.text.data, rfl⟩
  | image i =>
      refine ⟨"[Image: ".data ++ (i.source.source_type.data ++
        ([' '] ++ (i.source.media_type.data ++ [']']))), ?_⟩
      simp only [renderLine, List.append_assoc]
      rfl
  | toolUse tu =>
      refine ⟨"[Tool(".data ++ (tu.id.data ++ ("): ".data ++ (tu.name.data ++
        ([' '] ++ (tu.input.rendered.data ++ [']']))))), ?_⟩
      simp only [renderLine, List.append_assoc]
      rfl
  | toolResult tr =>
      refine ⟨"[Tool Result(".data ++ (tr.tool_use_id.data ++ ("): ".data ++
        (tr.content.data ++ [']']))), ?_⟩
      simp only [renderLine, List.append_assoc]
      rfl
  | thinking th =>
      refine ⟨"[Thinking: ".data ++ (th.thinking.data ++ [']']), ?_⟩
      simp only [renderLine, List.append_assoc]
      rfl

lemma renderLine_assistant_tag (c : Content) :
    "assistant: ".data.isPrefixOf (renderLine .assistant c) = true := by
  rw [List.isPrefixOf_iff_prefix]
  cases c with
  | text t => exact ⟨t.text.data, rfl⟩
  | image i =>
      refine ⟨"[Image: ".data ++ (i.source.source_type.data ++
        ([' '] ++ (i.source.media_type.data ++ [']']))), ?_⟩
      simp only [renderLine, List.append_assoc]
      rfl
  | toolUse tu =>
      refine ⟨"[Tool(".data ++ (tu.id.data ++ ("): ".data ++ (tu.name.data ++
        ([' '] ++ (tu.input.rendered.data ++ [']']))))), ?_⟩
      simp only [renderLine, List.append_assoc]
      rfl
  | toolResult tr =>
      refine ⟨"[Tool Result(".data ++ (tr.tool_use_id.data ++ ("): ".data ++
        (tr.content.data ++ [']']))), ?_⟩
      simp only [renderLine, List.append_assoc]
      rfl
  | thinking th =>
      refine ⟨"[Thinking: ".data ++ (th.thinking.data ++ [']']), ?_⟩
      simp only [renderLine, List.append_assoc]
      rfl

lemma renderLine_user_no_assistant_tag (c : Content) :
    "assistant: ".data.isPrefixOf (renderLine .user c) = false := by
  cases c <;> rfl

lemma renderLine_tagged (role : Role) (c : Content) :
    startsWithRole (renderLine role c) = true := by
  cases role
  · have h := renderLine_user_tag c
    simp only [startsWithRole]
    rw [show ("user: ".data) = ['u', 's', 'e', 'r', ':', ' '] from rfl] at h
    rw [h, Bool.true_or]
  · have h := renderLine_assistant_tag c
    simp only [startsWithRole]
    rw [show ("assistant: ".data) =
        ['a', 's', 's', 'i', 's', 't', 'a', 'n', 't', ':', ' '] from rfl] at h
    rw [h, Bool.or_true]

lemma startsWithRole_head {l : List Char} (h : startsWithRole l = true) :
    ∀ ch, l.head? = some ch → isRustWhitespace ch = false := by
  simp only [startsWithRole, Bool.or_eq_true] at h
  rcases h with h | h <;>
    · obtain ⟨t, ht⟩ := List.isPrefixOf_iff_prefix.mp h
      intro ch hch
      rw [← ht] at hch
      injection hch with he
      rw [← he]
      rfl

lemma startsWithRole_ne_nil {l : List Char} (h : startsWithRole l = true) : l ≠ [] := by
  simp only [startsWithRole, Bool.or_eq_true] at h
  rcases h with h | h <;>
    · obtain ⟨t, ht⟩ := List.isPrefixOf_iff_prefix.mp h
      rw [← ht]
      simp

lemma flatten_eq_intercalate (lines : List (List Char)) (h : lines ≠ []) :
    (lines.map fun l => l ++ ['\n']).flatten = List.intercalate ['\n'] lines ++ ['\n'] := by
  induction lines with
  | nil => exact absurd rfl h
  | cons l ls ih =>
      cases ls with
      | nil => simp [intercalate_singleton]
      | cons l2 ls2 =>
          rw [intercalate_cons2]
          simp only [List.map_cons, List.flatten_cons] at ih ⊢
          rw [ih (by simp)]
          simp [List.append_assoc]

lemma intercalate_ne_nil (l : List Char) (ls : List (List Char)) (h : l ≠ []) :
    List.intercalate ['\n'] (l :: ls) ≠ [] := by
  cases ls with
  | nil => rw [intercalate_singleton]; exact h
  | cons l2 ls2 =>
      rw [intercalate_cons2]
      cases l with
      | nil => simp
      | cons c cs => simp

lemma head?_intercalate (l : List Char) (ls : List (List Char)) (h : l ≠ []) :
    (List.intercalate ['\n'] (l :: ls)).head? = l.head? := by
  cases ls with
  | nil => rw [intercalate_singleton]
  | cons l2 ls2 =>
      rw [intercalate_cons2]
      cases l with
      | nil => exact absurd rfl h
      | cons c cs => rfl

lemma getLast?_intercalate (lines : List (List Char)) (h : ∀ l ∈ lines, l ≠ []) :
    ∀ d, (List.intercalate ['\n'] lines).getLast? = some d →
      ∃ l ∈ lines, l.getLast? = some d := by
  induction lines with
  | nil => intro d hd; simp [List.intercalate] at hd
  | cons l ls ih =>
      cases ls with
      | nil =>
          intro d hd
          rw [intercalate_singleton] at hd
          exact ⟨l, List.mem_cons_self l [], hd⟩
      | cons l2 ls2 =>
          intro d hd
          rw [intercalate_cons2] at hd
          have hne : List.intercalate ['\n'] (l2 :: ls2) ≠ [] :=
            intercalate_ne_nil l2 ls2 (h l2 (by simp))
          obtain ⟨e, he⟩ : ∃ e, (List.intercalate ['\n'] (l2 :: ls2)).getLast? = some e :=
            ⟨_, List.getLast?_eq_getLast _ hne⟩
          have hb : ('\n' :: List.intercalate ['\n'] (l2 :: ls2)).getLast? =
              (List.intercalate ['\n'] (l2 :: ls2)).getLast? := by
            cases hx : List.intercalate ['\n'] (l2 :: ls2) with
            | nil => exact absurd hx hne
            | cons x xs => rw [List.getLast?_cons_cons]
          rw [List.getLast?_append, hb, he] at hd
          have hed : e = d := by
            simpa using hd
          obtain ⟨l3, hl3, hl3d⟩ :=
            ih (fun x hx => h x (List.mem_cons_of_mem l hx)) d (hed ▸ he)
          exact ⟨l3, List.mem_cons_of_mem l hl3, hl3d⟩

lemma format_content_assistant_texts (resp : MessagesResponse) (texts : List Text)
    (hrole : resp.role = .assistant)
    (hcontent : resp.content = texts.map .text)
    (hclean : ∀ t ∈ texts, '\n' ∉ t.text.data ∧ t.text.data.getLast? ≠ some '\r' ∧
        "assistant: ".data.isPrefixOf t.text.data = false) :
    format_content resp =
      String.mk (trimList (List.intercalate ['\n'] (texts.map fun t => t.text.data))) := by
  unfold format_content
  rw [hrole, hcontent, foldl_formatStep]
  simp only [List.nil_append, Bool.false_or]
  have hflag : (texts.map Content.text).any (setsUserFlag .assistant) = false := by
    simp [List.any_map, setsUserFlag, Function.comp]
  rw [hflag]
  simp only [Bool.not_false, if_true]
  have hmm : ((texts.map Content.text).map fun c => renderLine Role.assistant c ++ ['\n']) =
      (texts.map fun t => "assistant: ".data ++ t.text.data).map fun l => l ++ ['\n'] := by
    rw [List.map_map, List.map_map]
    exact List.map_congr_left fun t ht => rfl
  rw [hmm]
  rw [linesOf_flatten (texts.map fun t => "assistant: ".data ++ t.text.data) ?hcl]
  case hcl =>
    intro l hl
    obtain ⟨t, ht, rfl⟩ := List.mem_map.mp hl
    constructor
    · intro hmem
      rcases List.mem_append.mp hmem with hmem | hmem
      · exact absurd hmem (by decide)
      · exact (hclean t ht).1 hmem
    · cases hgl : t.text.data with
      | nil => decide
      | cons x xs =>
          rw [List.getLast?_append]
          have hx : (x :: xs).getLast? ≠ some '\r' := by rw [← hgl]; exact (hclean t ht).2.1
          cases hgl2 : (x :: xs).getLast? with
          | none => simp at hgl2
          | some e =>
              rw [hgl2] at hx
              simpa using hx
  have hstrip : (texts.map fun t => "assistant: ".data ++ t.text.data).map
      (trimStartMatchesList "assistant: ".data) = texts.map fun t => t.text.data := by
    rw [List.map_map]
    apply List.map_congr_left
    intro t ht
    show trimStartMatchesList "assistant: ".data ("assistant: ".data ++ t.text.data) =
      t.text.data
    rw [trimSM_strip _ _ (by decide), trimSM_of_not _ _ (hclean t ht).2.2]
  rw [hstrip]

lemma format_content_tagged (resp : MessagesResponse)
    (hclean : ∀ c ∈ resp.content, cleanLine (renderLine resp.role c) = true)
    (htrig : resp.role = .user ∨ resp.content.any (setsUserFlag resp.role) = true) :
    format_content resp =
      String.mk (List.intercalate ['\n'] (resp.content.map (renderLine resp.role))) := by
  unfold format_content
  rw [foldl_formatStep]
  simp only [List.nil_append, Bool.false_or]
  have hmm : (resp.content.map fun c => renderLine resp.role c ++ ['\n']) =
      (resp.content.map (renderLine resp.role)).map fun l => l ++ ['\n'] := by
    rw [List.map_map]
    exact List.map_congr_left fun c hc => rfl
  rw [hmm]
  have hlineprops : ∀ l ∈ resp.content.map (renderLine resp.role),
      '\n' ∉ l ∧ l.getLast? ≠ some '\r' ∧ l ≠ [] ∧ startsWithRole l = true := by
    intro l hl
    obtain ⟨c, hc, rfl⟩ := List.mem_map.mp hl
    exact ⟨cleanLine_nl (hclean c hc), cleanLine_cr (hclean c hc),
      startsWithRole_ne_nil (renderLine_tagged _ c), renderLine_tagged _ c⟩
  by_cases hnil : resp.content = []
  · rw [hnil]
    simp [linesOf, splitNl, trimList, List.intercalate, List.intersperse]
  · obtain ⟨c0, cs0, hc0⟩ : ∃ c0 cs0, resp.content = c0 :: cs0 := by
      cases hx : resp.content with
      | nil => exact absurd hx hnil
      | cons a b => exact ⟨a, b, rfl⟩
    have hlne : resp.content.map (renderLine resp.role) ≠ [] := by
      rw [hc0]; simp
    have hhead : ∀ ch,
        (List.intercalate ['\n'] (resp.content.map (renderLine resp.role))).head? = some ch →
          isRustWhitespace ch = false := by
      intro ch hch
      rw [hc0, List.map_cons,
        head?_intercalate _ _ (startsWithRole_ne_nil (renderLine_tagged resp.role c0))] at hch
      exact startsWithRole_head (renderLine_tagged resp.role c0) ch hch
    have hlast : ∀ ch,
        (List.intercalate ['\n'] (resp.content.map (renderLine resp.role))).getLast? = some ch →
          isRustWhitespace ch = false := by
      intro ch hch
      obtain ⟨l, hl, hld⟩ := getLast?_intercalate _
        (fun l hl => (hlineprops l hl).2.2.1) ch hch
      obtain ⟨c, hc, rfl⟩ := List.mem_map.mp hl
      exact cleanLine_last (hclean c hc) ch hld
    cases hflag : resp.content.any (setsUserFlag resp.role) with
    | false =>
        have hrole : resp.role = .user := by
          rcases htrig with h | h
          · exact h
          · rw [hflag] at h; cases h
        simp only [Bool.not_false, if_true]
        rw [linesOf_flatten _ (fun l hl => ⟨(hlineprops l hl).1, (hlineprops l hl).2.1⟩)]
        have hstrip : (resp.content.map (renderLine resp.role)).map
            (trimStartMatchesList "assistant: ".data) =
            resp.content.map (renderLine resp.role) := by
          refine Eq.trans (List.map_congr_left fun l hl => ?_) (List.map_id _)
          obtain ⟨c, hc, rfl⟩ := List.mem_map.mp hl
          rw [hrole]
          exact trimSM_of_not _ _ (renderLine_user_no_assistant_tag c)
        rw [hstrip]
        exact congrArg String.mk (trimList_eq_self _ hhead hlast)
    | true =>
        simp only [Bool.not_true, if_false]
        rw [flatten_eq_intercalate _ hlne]
        exact congrArg String.mk (trimList_append_nl _ hhead hlast)

/-- Claim C3 (counterexample): the identity half of the claim fails at the
concrete input a = empty: merging empty with empty forces every counter to
Some 0, which differs from empty (all counters absent). -/
theorem usage_merge_identity_cex :
    Usage.merge Usage.default Usage.default ≠ Usage.default := by decide

/-- Claim C3 (amended): Usage.merge is associative for all a, b, c; merging
with the empty Usage is not the identity in general — it forces every
counter to Some of its present-or-zero value — and it is the identity
exactly on Usages whose four counters are all present. -/
theorem usage_merge_assoc_identity :
    (∀ a b c : Usage, (a.merge b).merge c = a.merge (b.merge c)) ∧
    (∀ a : Usage, a.merge Usage.default =
        { input_tokens := some (a.input_tokens.getD 0)
          output_tokens := some (a.output_tokens.getD 0)
          cache_creation_input_tokens := some (a.cache_creation_input_tokens.getD 0)
          cache_read_input_tokens := some (a.cache_read_input_tokens.getD 0) }) ∧
    (∀ a : Usage, a.allPresent = true → a.merge Usage.default = a) := by
  refine ⟨fun a b c => ?_, fun a => ?_, fun a h => ?_⟩
  · simp [Usage.merge, Nat.add_assoc]
  · simp [Usage.merge, Usage.default]
  · obtain ⟨i, o, cc, cr⟩ := a
    cases i <;> cases o <;> cases cc <;> cases cr <;>
      simp_all [Usage.merge, Usage.default, Usage.allPresent]

/-- Claim C3 (witness): the all-present identity instance at a concrete
Usage value. -/
theorem usage_merge_assoc_identity_witness :
    Usage.merge ⟨some 1, some 2, some 3, some 4⟩ Usage.default =
      ⟨some 1, some 2, some 3, some 4⟩ :=
  usage_merge_assoc_identity.2.2 _ (by decide)

/-- Claim C10: every counter of a merged Usage is present, and a response
state reached by a successful merge of an event sequence containing at
least one MessageStart or MessageDelta has all four usage counters
present. -/
theorem usage_counters_forced_present :
    (∀ a b : Usage, (a.merge b).allPresent = true) ∧
    (∀ (events : List StreamEvent) (resp r : MessagesResponse),
      merge_events resp events = .ok r →
      (∃ e ∈ events, touchesUsage e = true) →
      r.usage.allPresent = true) := by
  refine ⟨fun a b => Usage.merge_allPresent a b, fun events => ?_⟩
  induction events with
  | nil =>
      intro resp r _ hex
      simp at hex
  | cons e es ih =>
      intro resp r h hex
      obtain ⟨r1, h1, h2⟩ := merge_events_ok_step h
      rcases hex with ⟨e2, he2, ht⟩
      rcases List.mem_cons.mp he2 with rfl | hmem
      · exact merge_events_preserve_present h2 (merge_event_touches_present ht h1)
      · exact ih r1 r h2 ⟨e2, hmem, ht⟩

/-- Claim C10 (witness): after merging one MessageStart event into the
default response, all four usage counters are present. -/
theorem usage_counters_forced_present_witness :
    ({ MessagesResponse.default with
        usage := ⟨some 0, some 0, some 0, some 0⟩ } : MessagesResponse).usage.allPresent = true :=
  usage_counters_forced_present.2 [.messageStart MessagesResponse.default]
    MessagesResponse.default _ (by decide)
    ⟨.messageStart MessagesResponse.default, by simp, rfl⟩

/-- Claim C2 (counterexample): merging a MessageStart event does not give
the response exactly the usage carried by the event: at a state whose usage
already holds Some 5 input tokens and an event carrying Some 3, the result
holds their sum, not the event's value. -/
theorem message_start_usage_not_snapshot_cex :
    (merge_event
        { MessagesResponse.default with usage := ⟨some 5, none, none, none⟩ }
        (.messageStart
          { MessagesResponse.default with id := "msg_01", usage := ⟨some 3, none, none, none⟩ })).getResponse?.map
      (fun r => r.usage) ≠ some ⟨some 3, none, none, none⟩ := by decide

/-- Claim C2 (amended): merging a MessageStart event overwrites the
response's identifier, model, role, content, stop reason and stop sequence
with the event's values, but the usage is additively merged with the prior
usage (and the message type is left untouched) rather than overwritten. -/
theorem message_start_snapshot_except_usage (resp message : MessagesResponse) :
    ∃ r, merge_event resp (.messageStart message) = .ok r ∧
      r.id = message.id ∧ r.model = message.model ∧ r.role = message.role ∧
      r.content = message.content ∧ r.stop_reason = message.stop_reason ∧
      r.stop_sequence = message.stop_sequence ∧
      r.message_type = resp.message_type ∧
      r.usage = resp.usage.merge message.usage :=
  ⟨_, rfl, rfl, rfl, rfl, rfl, rfl, rfl, rfl, rfl⟩

/-- Claim C7 (counterexample): applying the same ContentBlockStart twice is
not the same as applying it once when the event's index lies beyond the
current length: on an empty content sequence and index 1 the block is
appended twice. -/
theorem content_block_start_not_idempotent_cex :
    merge_events MessagesResponse.default
        [.contentBlockStart 1 (.text ⟨"", none⟩), .contentBlockStart 1 (.text ⟨"", none⟩)] ≠
      merge_events MessagesResponse.default [.contentBlockStart 1 (.text ⟨"", none⟩)] := by
  decide

/-- Claim C7 (amended): a ContentBlockStart appends its block when the
content length is at most the index and leaves the response unchanged when
a block already occupies the index; applying it twice equals applying it
once provided the index is at most the current content length. -/
theorem content_block_start_rules (resp : MessagesResponse) (index : Nat) (block : Content) :
    (resp.content.length ≤ index →
      merge_event resp (.contentBlockStart index block) =
        .ok { resp with content := resp.content ++ [block] }) ∧
    (index < resp.content.length →
      merge_event resp (.contentBlockStart index block) = .ok resp) ∧
    (index ≤ resp.content.length →
      merge_events resp [.contentBlockStart index block, .contentBlockStart index block] =
        merge_events resp [.contentBlockStart index block]) := by
  refine ⟨fun h => ?_, fun h => ?_, fun h => ?_⟩
  · simp [merge_event, h]
  · simp [merge_event, Nat.not_le.mpr h]
  · rcases Nat.lt_or_ge index resp.content.length with hlt | hge
    · simp [merge_events, merge_event, Nat.not_le.mpr hlt]
    · have h2 : ¬ (resp.content.length + 1 ≤ index) := by omega
      simp [merge_events, merge_event, hge, h2]

/-- Claim C7 (witness): the append and idempotence branches at a concrete
input (empty content, index 0). -/
theorem content_block_start_rules_witness :
    merge_event MessagesResponse.default (.contentBlockStart 0 (.text ⟨"hi", none⟩)) =
      .ok { MessagesResponse.default with content := [] ++ [.text ⟨"hi", none⟩] } ∧
    merge_events MessagesResponse.default
        [.contentBlockStart 0 (.text ⟨"hi", none⟩), .contentBlockStart 0 (.text ⟨"hi", none⟩)] =
      merge_events MessagesResponse.default [.contentBlockStart 0 (.text ⟨"hi", none⟩)] :=
  ⟨(content_block_start_rules MessagesResponse.default 0 _).1 (by decide),
   (content_block_start_rules MessagesResponse.default 0 _).2.2 (by decide)⟩

/-- Claim C1 (counterexample): a delta against a ToolUse block does not
surface a failure result to the caller — the merge panics (the Rust
unimplemented macro), which unwinds and by default terminates the process,
rather than returning any value. -/
theorem tool_use_delta_panics_cex :
    merge_event
        { MessagesResponse.default with
            content := [.toolUse ⟨"toolu_01", "get_weather", ⟨"null"⟩, none⟩] }
        (.contentBlockDelta 0 (.inputJsonDelta "x")) =
      .panicked "Partial updates for ToolUse blocks are not supported yet" := by decide

/-- Claim C1 (amended): applying any ContentBlockDelta at an index holding a
ToolUse block fails loudly with the explicit unimplemented-operation panic
message — never a silent drop and never a corrupted tool input — but it is
a panic that terminates execution, not an error result returned to the
caller. -/
theorem tool_use_delta_unimplemented (resp : MessagesResponse) (index : Nat) (tu : ToolUse)
    (delta : ContentBlockDelta) (h : resp.content[index]? = some (.toolUse tu)) :
    merge_event resp (.contentBlockDelta index delta) =
      .panicked "Partial updates for ToolUse blocks are not supported yet" := by
  cases delta <;> simp [merge_event, h]

/-- Claim C1 (witness): the amended statement at a concrete response and a
TextDelta. -/
theorem tool_use_delta_unimplemented_witness :
    merge_event
        { MessagesResponse.default with content := [.toolUse ⟨"toolu_02", "t", ⟨"1"⟩, none⟩] }
        (.contentBlockDelta 0 (.textDelta "y")) =
      .panicked "Partial updates for ToolUse blocks are not supported yet" :=
  tool_use_delta_unimplemented _ 0 _ _ rfl

/-- Claim C4: a ContentBlockDelta whose kind does not match the Text or
Thinking block at its index is non-fatal (no panic) and leaves the whole
response — in particular that block's content — unchanged. -/
theorem mismatched_delta_is_noop (resp : MessagesResponse) (index : Nat)
    (delta : ContentBlockDelta)
    (h : (∃ t, resp.content[index]? = some (.text t) ∧
            ∀ s, delta ≠ ContentBlockDelta.textDelta s) ∨
         (∃ th, resp.content[index]? = some (.thinking th) ∧
            ∀ s, delta ≠ ContentBlockDelta.thinkingDelta s)) :
    merge_event resp (.contentBlockDelta index delta) = .ok resp := by
  rcases h with ⟨t, hc, hd⟩ | ⟨th, hc, hd⟩
  · cases delta with
    | textDelta s => exact absurd rfl (hd s)
    | inputJsonDelta s => simp [merge_event, hc]
    | thinkingDelta s => simp [merge_event, hc]
  · cases delta with
    | thinkingDelta s => exact absurd rfl (hd s)
    | textDelta s => simp [merge_event, hc]
    | inputJsonDelta s => simp [merge_event, hc]

/-- Claim C4 (witness): a ThinkingDelta against a Text block at a concrete
response is ignored. -/
theorem mismatched_delta_is_noop_witness :
    merge_event { MessagesResponse.default with content := [.text ⟨"abc", none⟩] }
        (.contentBlockDelta 0 (.thinkingDelta "zz")) =
      .ok { MessagesResponse.default with content := [.text ⟨"abc", none⟩] } :=
  mismatched_delta_is_noop _ 0 _
    (Or.inl ⟨⟨"abc", none⟩, rfl, fun s hs => ContentBlockDelta.noConfusion hs⟩)

lemma join_cons (d : String) (ds : List String) :
    String.join (d :: ds) = d ++ String.join ds :=
  String.ext (by simp [String.join_eq, String.data_append])

lemma join_singleton (t : String) : String.join [t] = t :=
  String.ext (by simp [String.join_eq])

lemma join_append (l1 l2 : List String) :
    String.join (l1 ++ l2) = String.join l1 ++ String.join l2 :=
  String.ext (by simp [String.join_eq, String.data_append])

lemma merge_events_append (r : MessagesResponse) (l1 l2 : List StreamEvent) :
    merge_events r (l1 ++ l2) =
      match merge_events r l1 with
      | .ok r1 => merge_events r1 l2
      | .panicked m => .panicked m := by
  induction l1 generalizing r with
  | nil => simp [merge_events]
  | cons e es ih =>
      cases he : merge_event r e with
      | ok r1 => simp [merge_events, he, ih]
      | panicked m => simp [merge_events, he]

lemma merge_events_textDeltas (r : MessagesResponse) (ds : List String) :
    ∀ s : String,
      merge_events { r with content := [.text ⟨s, none⟩] }
          (ds.map fun d => .contentBlockDelta 0 (.textDelta d)) =
        .ok { r with content := [.text ⟨s ++ String.join ds, none⟩] } := by
  induction ds with
  | nil =>
      intro s
      simp [merge_events, show String.join [] = "" from rfl, String.append_empty]
  | cons d ds ih =>
      intro s
      simp only [List.map_cons, merge_events, merge_event]
      simp only [List.getElem?_eq_getElem, List.length_cons, Nat.zero_lt_succ,
        List.getElem_cons_zero, List.set_cons_zero]
      rw [join_cons, ← String.append_assoc]
      exact ih (s ++ d)

lemma merge_events_upTo (deltas : List String) (k : Nat) :
    merge_events MessagesResponse.default (textStreamUpTo deltas k) =
      .ok { MessagesResponse.default with
              usage := ⟨some 0, some 0, some 0, some 0⟩
              content := [.text ⟨String.join (deltas.take k), none⟩] } := by
  have h2 : merge_events MessagesResponse.default
      [.messageStart MessagesResponse.default, .contentBlockStart 0 (.text ⟨"", none⟩)] =
      .ok { MessagesResponse.default with
              usage := ⟨some 0, some 0, some 0, some 0⟩
              content := [.text ⟨"", none⟩] } := by decide
  rw [show textStreamUpTo deltas k =
        [.messageStart MessagesResponse.default, .contentBlockStart 0 (.text ⟨"", none⟩)] ++
          ((deltas.take k).map fun s => .contentBlockDelta 0 (.textDelta s)) from rfl,
    merge_events_append, h2]
  have := merge_events_textDeltas
    { MessagesResponse.default with usage := ⟨some 0, some 0, some 0, some 0⟩ }
    (deltas.take k) ""
  rw [String.empty_append] at this
  exact this

/-- Claim C5 (counterexample): with an empty-string delta the read after
the delta equals the read before it, so it is not a strict
prefix-extension. -/
theorem text_stream_not_strict_cex :
    textAfter [""] 1 = textAfter [""] 0 ∧ textAfter [""] 0 = some "" := by decide

/-- Claim C5 (amended): along the canonical stream the text read after k
deltas is exactly the concatenation of the first k delta strings — so each
read extends the previous one as a prefix, strictly whenever the arriving
delta is nonempty (an empty-string delta leaves the read unchanged) — and
the read after MessageStop is the concatenation of all deltas in order. -/
theorem text_stream_monotone (deltas : List String) :
    (∀ k, textAfter deltas k = some (String.join (deltas.take k))) ∧
    finalText deltas = some (String.join deltas) ∧
    (∀ k (h : k < deltas.length),
      (∃ t, String.join (deltas.take k) ++ t = String.join (deltas.take (k + 1))) ∧
      (deltas.get ⟨k, h⟩ ≠ "" →
        String.join (deltas.take k) ≠ String.join (deltas.take (k + 1)))) := by
  have htake : ∀ k (h : k < deltas.length),
      String.join (deltas.take (k + 1)) =
        String.join (deltas.take k) ++ deltas.get ⟨k, h⟩ := by
    intro k h
    rw [List.take_succ, join_append, List.getElem?_eq_getElem h]
    simp [join_singleton, List.get_eq_getElem]
  refine ⟨fun k => ?_, ?_, fun k h => ⟨⟨deltas.get ⟨k, h⟩, (htake k h).symm⟩, fun hne heq => ?_⟩⟩
  · simp [textAfter, merge_events_upTo, MergeResult.getResponse?, content_text, join_singleton]
  · have hstop : ∀ r : MessagesResponse,
        merge_events r [.contentBlockStop 0, .messageStop] = .ok r := fun r => rfl
    simp [finalText, textStream, merge_events_append, merge_events_upTo, hstop,
      MergeResult.getResponse?, content_text, join_singleton, List.take_length]
  · rw [htake k h] at heq
    have hlen := congrArg String.length heq
    rw [String.length_append] at hlen
    have : (deltas.get ⟨k, h⟩).length = 0 := by omega
    exact hne (String.ext (List.length_eq_zero.mp this))

/-- Claim C5 (witness): the amended statement at the concrete stream with
deltas ab then c, at the first delta. -/
theorem text_stream_monotone_witness :
    (∃ t, String.join ((["ab", "c"] : List String).take 0) ++ t =
        String.join ((["ab", "c"] : List String).take 1)) ∧
    String.join ((["ab", "c"] : List String).take 0) ≠
      String.join ((["ab", "c"] : List String).take 1) ∧
    textAfter ["ab", "c"] 1 = some (String.join ((["ab", "c"] : List String).take 1)) :=
  ⟨((text_stream_monotone ["ab", "c"]).2.2 0 (by decide)).1,
   ((text_stream_monotone ["ab", "c"]).2.2 0 (by decide)).2 (by decide),
   (text_stream_monotone ["ab", "c"]).1 1⟩

/-- Claim C9 (counterexample): a response containing an Image block does
not get every output line role-prefixed: an assistant Text block whose text
spans two lines renders its second line with no role tag at all. -/
theorem rendering_missing_tag_cex :
    (linesOf (format_content { MessagesResponse.default with
        role := .assistant,
        content := [.text ⟨"x\ny", none⟩,
          .image ⟨⟨"base64", "image/png", "AAA"⟩, none⟩] }).data).map
      startsWithRole = [true, false, true] := by decide

/-- Claim C9 (amended): provided every rendered block line is a single line
(no embedded line break, no trailing Unicode whitespace or carriage return,
and for the assistant-only case no text that itself starts with the
assistant tag): a response whose role is assistant and whose content is
purely Text renders as the block texts joined by line breaks and then
trimmed of surrounding Unicode whitespace — no role prefixes are added;
a response whose role is user, or whose content contains an
Image/ToolUse/ToolResult block, renders one line per block and every line
carries its producing role's prefix.  The claim's two concrete examples
hold: role assistant with text Hi there renders exactly that text, and
role user with text hello renders it with the user prefix. -/
theorem rendering_convention :
    (∀ (resp : MessagesResponse) (texts : List Text),
      resp.role = .assistant → resp.content = texts.map .text →
      (∀ t ∈ texts, '\n' ∉ t.text.data ∧ t.text.data.getLast? ≠ some '\r' ∧
          "assistant: ".data.isPrefixOf t.text.data = false) →
      format_content resp =
        String.mk (trimList (List.intercalate ['\n'] (texts.map fun t => t.text.data)))) ∧
    (∀ resp : MessagesResponse,
      (∀ c ∈ resp.content, cleanLine (renderLine resp.role c) = true) →
      (resp.role = .user ∨ resp.content.any (setsUserFlag resp.role) = true) →
      linesOf (format_content resp).data = resp.content.map (renderLine resp.role) ∧
      ∀ l ∈ linesOf (format_content resp).data, startsWithRole l = true) ∧
    format_content { MessagesResponse.default with
        role := .assistant, content := [.text ⟨"Hi there", none⟩] } = "Hi there" ∧
    format_content { MessagesResponse.default with
        role := .user, content := [.text ⟨"hello", none⟩] } = "user: hello" := by
  refine ⟨fun resp texts h1 h2 h3 => format_content_assistant_texts resp texts h1 h2 h3,
    fun resp hclean htrig => ?_, ?_, by decide⟩
  · have hprops : ∀ l ∈ resp.content.map (renderLine resp.role),
        '\n' ∉ l ∧ l.getLast? ≠ some '\r' ∧ l ≠ [] := by
      intro l hl
      obtain ⟨c, hc, rfl⟩ := List.mem_map.mp hl
      exact ⟨cleanLine_nl (hclean c hc), cleanLine_cr (hclean c hc),
        startsWithRole_ne_nil (renderLine_tagged _ c)⟩
    have hfmt := format_content_tagged resp hclean htrig
    rw [hfmt]
    rw [show (String.mk (List.intercalate ['\n']
        (resp.content.map (renderLine resp.role)))).data =
      List.intercalate ['\n'] (resp.content.map (renderLine resp.role)) from rfl]
    rw [linesOf_intercalate _ hprops]
    refine ⟨rfl, fun l hl => ?_⟩
    obtain ⟨c, hc, rfl⟩ := List.mem_map.mp hl
    exact renderLine_tagged _ c
  · rw [format_content_assistant_texts _ [⟨"Hi there", none⟩] rfl rfl (by decide)]
    decide

/-- Claim C9 (witness): the amended statement applied at concrete inputs —
a two-text assistant response renders as the texts joined by a line break,
and a user response with one Image block renders both its lines with the
user prefix. -/
theorem rendering_convention_witness :
    format_content { MessagesResponse.default with
        role := .assistant,
        content := [.text ⟨"Hello", none⟩, .text ⟨"World", none⟩] } =
      String.mk (trimList (List.intercalate ['\n']
        (([⟨"Hello", none⟩, ⟨"World", none⟩] : List Text).map fun t => t.text.data))) ∧
    (linesOf (format_content { MessagesResponse.default with
        role := .user,
        content := [.text ⟨"hi", none⟩,
          .image ⟨⟨"base64", "image/png", "AAA"⟩, none⟩] }).data).map startsWithRole =
      [true, true] :=
  ⟨rendering_convention.1 _ [⟨"Hello", none⟩, ⟨"World", none⟩] rfl rfl (by decide),
   by
    have h := (rendering_convention.2.1 { MessagesResponse.default with
        role := .user,
        content := [.text ⟨"hi", none⟩,
          .image ⟨⟨"base64", "image/png", "AAA"⟩, none⟩] } (by decide) (Or.inl rfl)).1
    rw [h]
    decide⟩

/-- Claim C8: calling the streaming entry point with a request whose stream
flag is false returns the BadRequest error and performs no transport
action (no network call is attempted). -/
theorem stream_flag_contract (client : Anthropic) (request : MessagesRequest)
    (h : request.stream = false) :
    messages_stream client request =
      (.error (.badRequest "Streaming requests must have stream set to true"), []) := by
  simp [messages_stream, h]

/-- Claim C8 (witness): the default request (stream flag false) against a
concrete client. -/
theorem stream_flag_contract_witness :
    messages_stream ⟨"test-key", "https://api.anthropic.com"⟩ MessagesRequest.default =
      (.error (.badRequest "Streaming requests must have stream set to true"), []) :=
  stream_flag_contract _ _ rfl

end Misanthropy
